import Mathlib

/-!
Verification of the data-fetching procedure of the
`hercules-challenge-publications` repository
(notebook `1_Data_Fetching.ipynb`, Agriculture dataset section).

The notebook defines `load_ids` (read the manifest file and split it into
lines), `load_pmc_data` (a dict comprehension issuing one HTTP GET per
manifest entry and storing the raw response body), deletes the hard-coded
excluded article `PMC6472519` from the resulting dict, and finally writes
each remaining entry to `{dir}/{id}.xml` in binary mode.

The embedding below models the remote endpoint as a function from article id
to the outcome of the GET call, the in-memory dict with Python dict semantics
(insertion order, in-place update on duplicate keys, `KeyError` on deleting a
missing key), and the file system as an association list from paths to byte
contents where a binary-mode write replaces any previous file at the path.
-/

/-- Article identifiers are opaque strings (PMC accession numbers). -/
abbrev ArticleID := String

/-- Raw byte content of an HTTP response body or of a file on disk. -/
abbrev Bytes := List Nat

/-- An HTTP response as the notebook sees it: `requests.get` returns a
response object carrying a status code and the body bytes (`.content`). -/
structure Response where
  statusCode : Nat
  content : Bytes
deriving DecidableEq

/-- Outcome of one `requests.get` call: either a response object (any status
code, error pages included), or a raised exception (network failure). -/
inductive NetResult where
  | ok (r : Response)
  | exn
deriving DecidableEq

/-- The remote Europe PMC endpoint, modelled as a function from article id to
the outcome of the GET request issued for that id. -/
abbrev Remote := ArticleID → NetResult

def BMC_BASE_API : String := "https://www.ebi.ac.uk/europepmc/webservices/rest"

/-- The URL requested for one id, from the f-string in `load_pmc_data`. -/
def requestUrl (pmc_id : ArticleID) : String :=
  BMC_BASE_API ++ "/" ++ pmc_id ++ "/fullTextXML"

/-- The single characters Python `str.splitlines` treats as line boundaries:
`\n`, `\r`, `\v` (`\x0b`), `\f` (`\x0c`), `\x1c`, `\x1d`, `\x1e`, `\x85`
(NEL), `\u2028`  (LS) and `\u2029` (PS). -/
def isLineBoundary (c : Char) : Bool :=
  decide (c = '\n' ∨ c = '\r' ∨ c = '\x0b' ∨ c = '\x0c' ∨ c = '\x1c' ∨
    c = '\x1d' ∨ c = '\x1e' ∨ c = '\u0085' ∨ c = '\u2028' ∨ c = '\u2029')

/-- Python `str.splitlines`: the text is split at every line boundary, with
`\r\n` consumed as one two-character boundary, and text after the final
boundary yields an entry only when it is nonempty. The second argument
accumulates the current line in reverse. -/
def splitlinesAux : List Char → List Char → List (List Char)
  | [], cur => if cur.isEmpty then [] else [cur.reverse]
  | '\r' :: '\n' :: rest, cur => cur.reverse :: splitlinesAux rest []
  | c :: rest, cur =>
    if isLineBoundary c then cur.reverse :: splitlinesAux rest []
    else splitlinesAux rest (c :: cur)

def splitlines (s : String) : List String :=
  (splitlinesAux s.data []).map (fun cs => String.mk cs)

/-- `load_ids` from the notebook: `f.read().splitlines()`. The file is
modelled by its content string. -/
def load_ids (base_file_content : String) : List String :=
  splitlines base_file_content

/-- A Python dict from article ids to byte contents, as an insertion-ordered
association list with pairwise distinct keys. -/
abbrev Dict := List (ArticleID × Bytes)

/-- The keys of an association list, in order. -/
def keysOf (d : Dict) : List ArticleID := d.map Prod.fst

/-- Python dict binding `d[k] = v` (as performed by a dict comprehension for
each iteration): replaces the value in place when the key is already present,
keeping its position, and otherwise appends the new binding at the end. -/
def dictInsert (d : Dict) (k : ArticleID) (v : Bytes) : Dict :=
  if k ∈ keysOf d then d.map (fun e => if e.1 = k then (k, v) else e)
  else d ++ [(k, v)]

/-- Python `del d[k]`: removes the binding when present; `none` models the
`KeyError` raised when the key is absent. -/
def dictDel (d : Dict) (k : ArticleID) : Option Dict :=
  if k ∈ keysOf d then some (d.filter (fun e => e.1 ≠ k)) else none

/-- The dict comprehension of `load_pmc_data`, one iteration per manifest
entry, evaluated left to right; an exception raised by any `requests.get`
aborts the whole comprehension (`none`), in which case nothing is returned.
The accumulator is the dict built so far. -/
def loadAux (remote : Remote) : List ArticleID → Dict → Option Dict
  | [], d => some d
  | pmc_id :: rest, d =>
    match remote pmc_id with
    | .exn => none
    | .ok r => loadAux remote rest (dictInsert d pmc_id r.content)

/-- `load_pmc_data` from the notebook:
`{pmc_id: requests.get(...).content for pmc_id in ids_to_download}`.
The body bytes are stored whatever the status code is. -/
def load_pmc_data (remote : Remote) (ids_to_download : List ArticleID) : Option Dict :=
  loadAux remote ids_to_download []

/-- The ids for which an HTTP GET is actually issued during `load_pmc_data`,
in order: every manifest entry up to and including the first one whose
request raises an exception. -/
def requestedIds (remote : Remote) : List ArticleID → List ArticleID
  | [] => []
  | pmc_id :: rest =>
    match remote pmc_id with
    | .exn => [pmc_id]
    | .ok _ => pmc_id :: requestedIds remote rest

/-- The article excluded by the notebook for license reasons. -/
def excludedId : ArticleID := "PMC6472519"

/-- The hard-coded exclusion set `{'PMC6472519'}`. -/
def exclusions : List ArticleID := [excludedId]

/-- The output directory as an association list from file paths to contents. -/
abbrev FS := List (String × Bytes)

/-- `os.path.join(AGRICULTURE_DATASET_DIR, f"{key}.xml")` on a posix path. -/
def pathFor (dir pmc_id : String) : String := dir ++ "/" ++ pmc_id ++ ".xml"

/-- `open(file_path, "wb")` followed by `f.write(val)`: creates the file or
truncates an existing one, so the new content replaces any previous file at
that path and the write never fails on an existing file. -/
def fsWrite (fs : FS) (p : String) (v : Bytes) : FS :=
  (p, v) :: fs.filter (fun e => e.1 ≠ p)

/-- The content of the file at path `p`, when one exists. -/
def fsLookup (fs : FS) (p : String) : Option Bytes :=
  (fs.find? (fun e => e.1 = p)).map Prod.snd

/-- The final notebook cell: write each dict entry to `{dir}/{key}.xml`, in
dict iteration order. -/
def writeLoop (fs : FS) (dir : String) (d : Dict) : FS :=
  d.foldl (fun acc e => fsWrite acc (pathFor dir e.1) e.2) fs

/-- How a run of the notebook can stop early: an exception raised by a
`requests.get` call, or the `KeyError` raised by `del` on a missing key. -/
inductive RunOutcome where
  | netExn
  | keyError
deriving DecidableEq

/-- The whole fetch-and-persist procedure, acting on an initial file-system
state: `pmc_dataset_xml = load_pmc_data(article_ids)`, then
`del pmc_dataset_xml['PMC6472519']`, then the write loop. An uncaught
exception in an earlier cell stops the run before any later cell executes,
leaving the file system unchanged. -/
def run (remote : Remote) (article_ids : List ArticleID) (dir : String) (fs : FS) :
    FS × Option RunOutcome :=
  match load_pmc_data remote article_ids with
  | none => (fs, some RunOutcome.netExn)
  | some pmc_dataset_xml =>
    match dictDel pmc_dataset_xml excludedId with
    | none => (fs, some RunOutcome.keyError)
    | some remaining => (writeLoop fs dir remaining, none)

/-- Number of files produced by a run started on an empty output directory. -/
def numOutputFiles (remote : Remote) (ids : List ArticleID) (dir : String) : Nat :=
  ((run remote ids dir []).1).length

/-- HTTP success: a 2xx status code. -/
def isSuccess (r : Response) : Bool := decide (200 ≤ r.statusCode ∧ r.statusCode < 300)

/-- A string of `n` newline characters. -/
def newlines (n : Nat) : String := String.mk (List.replicate n '\n')

/-- A remote on which every request returns a 200 response. -/
def okRemote : Remote := fun _ => NetResult.ok ⟨200, [60, 120, 62]⟩

/-- A remote on which the request for `"A"` returns a 404 error page and every
other request returns a 200 response. -/
def remote404 : Remote := fun pmc_id =>
  if pmc_id = "A" then NetResult.ok ⟨404, [69, 82, 82]⟩ else NetResult.ok ⟨200, [60, 120, 62]⟩

/-- A remote on which every request raises an exception. -/
def exnRemote : Remote := fun _ => NetResult.exn

/-! ### Association-list lemmas for the Python dict model -/

theorem keysOf_dictInsert (d : Dict) (k : ArticleID) (v : Bytes) :
    keysOf (dictInsert d k v) = if k ∈ keysOf d then keysOf d else keysOf d ++ [k] := by
  simp only [dictInsert, keysOf]
  split
  · rw [List.map_map]
    apply List.map_congr_left
    intro e _
    by_cases h : e.1 = k
    · simp [Function.comp, h]
    · simp [Function.comp, h]
  · simp

theorem mem_keysOf_dictInsert_self (d : Dict) (k : ArticleID) (v : Bytes) :
    k ∈ keysOf (dictInsert d k v) := by
  rw [keysOf_dictInsert]
  split
  · assumption
  · simp

theorem mem_keysOf_dictInsert_of_mem (d : Dict) (k a : ArticleID) (v : Bytes)
    (h : a ∈ keysOf d) : a ∈ keysOf (dictInsert d k v) := by
  rw [keysOf_dictInsert]
  split
  · exact h
  · exact List.mem_append_left _ h

theorem nodup_keysOf_dictInsert (d : Dict) (k : ArticleID) (v : Bytes)
    (h : (keysOf d).Nodup) : (keysOf (dictInsert d k v)).Nodup := by
  by_cases hmem : k ∈ keysOf d
  · rw [keysOf_dictInsert, if_pos hmem]
    exact h
  · rw [keysOf_dictInsert, if_neg hmem]
    rw [List.nodup_append]
    refine ⟨h, List.nodup_singleton k, ?_⟩
    intro a ha hk
    rw [List.mem_singleton] at hk
    exact hmem (hk ▸ ha)

theorem mem_dictInsert (d : Dict) (k : ArticleID) (v : Bytes) (e : ArticleID × Bytes)
    (he : e ∈ dictInsert d k v) : e = (k, v) ∨ (e ∈ d ∧ e.1 ≠ k) := by
  simp only [dictInsert] at he
  split at he
  · rcases List.mem_map.mp he with ⟨a, ha, hae⟩
    by_cases h : a.1 = k
    · left
      rw [if_pos h] at hae
      exact hae.symm
    · right
      rw [if_neg h] at hae
      subst hae
      exact ⟨ha, h⟩
  · rcases List.mem_append.mp he with h | h
    · right
      refine ⟨h, ?_⟩
      intro hek
      exact (by assumption : ¬ k ∈ keysOf d) (hek ▸ List.mem_map_of_mem Prod.fst h)
    · left
      rw [List.mem_singleton] at h
      exact h

theorem keysOf_filter_ne (d : Dict) (k : ArticleID) :
    keysOf (d.filter (fun e => e.1 ≠ k)) = (keysOf d).filter (fun a => a ≠ k) := by
  simp only [keysOf]
  rw [List.filter_map]
  rfl

theorem length_filter_ne_of_nodup (l : List ArticleID) (a : ArticleID)
    (hnd : l.Nodup) (ha : a ∈ l) :
    (l.filter (fun x => x ≠ a)).length = l.length - 1 := by
  induction l with
  | nil => cases ha
  | cons b rest ih =>
    rw [List.nodup_cons] at hnd
    by_cases hb : b = a
    · subst hb
      have hrest : rest.filter (fun x => x ≠ b) = rest := by
        apply List.filter_eq_self.mpr
        intro x hx
        simp only [decide_eq_true_iff]
        intro hxb
        exact hnd.1 (hxb ▸ hx)
      simp [List.filter_cons, hrest]
      intro x hx hxb
      exact hnd.1 (hxb ▸ hx)
    · have ha' : a ∈ rest := by
        rcases List.mem_cons.mp ha with h | h
        · exact absurd h.symm hb
        · exact h
      have hlen : 1 ≤ rest.length := List.length_pos.mpr (List.ne_nil_of_mem ha')
      simp only [List.filter_cons, decide_eq_true_iff]
      rw [if_pos hb]
      simp only [List.length_cons, ih hnd.2 ha']
      omega

/-! ### Lemmas about the dict comprehension `load_pmc_data` -/

theorem loadAux_none_of_exn (remote : Remote) (ids : List ArticleID) (d : Dict)
    (h : ∃ i ∈ ids, remote i = NetResult.exn) : loadAux remote ids d = none := by
  induction ids generalizing d with
  | nil => rcases h with ⟨i, hi, _⟩; cases hi
  | cons a rest ih =>
    rcases h with ⟨i, hi, hexn⟩
    simp only [loadAux]
    cases hra : remote a with
    | exn => rfl
    | ok r =>
      apply ih
      rcases List.mem_cons.mp hi with h | h
      · subst h
        rw [hra] at hexn
        cases hexn
      · exact ⟨i, h, hexn⟩

theorem loadAux_some_of_ok (remote : Remote) (ids : List ArticleID) (d : Dict)
    (h : ∀ i ∈ ids, remote i ≠ NetResult.exn) :
    ∃ d', loadAux remote ids d = some d' := by
  induction ids generalizing d with
  | nil => exact ⟨d, rfl⟩
  | cons a rest ih =>
    simp only [loadAux]
    cases hra : remote a with
    | exn => exact absurd hra (h a (List.mem_cons_self a rest))
    | ok r => exact ih _ (fun i hi => h i (List.mem_cons_of_mem a hi))

theorem mem_keysOf_loadAux (remote : Remote) (ids : List ArticleID) (d d' : Dict)
    (h : loadAux remote ids d = some d') (a : ArticleID)
    (ha : a ∈ keysOf d ∨ a ∈ ids) : a ∈ keysOf d' := by
  induction ids generalizing d with
  | nil =>
    simp only [loadAux, Option.some.injEq] at h
    subst h
    rcases ha with h | h
    · exact h
    · cases h
  | cons b rest ih =>
    simp only [loadAux] at h
    cases hrb : remote b with
    | exn => rw [hrb] at h; cases h
    | ok r =>
      rw [hrb] at h
      apply ih _ h
      rcases ha with hd | hids
      · exact Or.inl (mem_keysOf_dictInsert_of_mem _ _ _ _ hd)
      · rcases List.mem_cons.mp hids with hb | hrest
        · exact Or.inl (hb ▸ mem_keysOf_dictInsert_self d b r.content)
        · exact Or.inr hrest

theorem keysOf_loadAux_subset (remote : Remote) (ids : List ArticleID) (d d' : Dict)
    (h : loadAux remote ids d = some d') (a : ArticleID)
    (ha : a ∈ keysOf d') : a ∈ keysOf d ∨ a ∈ ids := by
  induction ids generalizing d with
  | nil =>
    simp only [loadAux, Option.some.injEq] at h
    subst h
    exact Or.inl ha
  | cons b rest ih =>
    simp only [loadAux] at h
    cases hrb : remote b with
    | exn => rw [hrb] at h; cases h
    | ok r =>
      rw [hrb] at h
      rcases ih _ h with hins | hrest
      · rw [keysOf_dictInsert] at hins
        split at hins
        · exact Or.inl hins
        · rcases List.mem_append.mp hins with h1 | h1
          · exact Or.inl h1
          · rw [List.mem_singleton] at h1
            exact Or.inr (h1 ▸ List.mem_cons_self b rest)
      · exact Or.inr (List.mem_cons_of_mem b hrest)

theorem nodup_keysOf_loadAux (remote : Remote) (ids : List ArticleID) (d d' : Dict)
    (h : loadAux remote ids d = some d') (hd : (keysOf d).Nodup) :
    (keysOf d').Nodup := by
  induction ids generalizing d with
  | nil =>
    simp only [loadAux, Option.some.injEq] at h
    subst h
    exact hd
  | cons b rest ih =>
    simp only [loadAux] at h
    cases hrb : remote b with
    | exn => rw [hrb] at h; cases h
    | ok r =>
      rw [hrb] at h
      exact ih _ h (nodup_keysOf_dictInsert _ _ _ hd)

theorem values_loadAux (remote : Remote) (ids : List ArticleID) (d d' : Dict)
    (h : loadAux remote ids d = some d')
    (hd : ∀ e ∈ d, ∃ r, remote e.1 = NetResult.ok r ∧ e.2 = r.content) :
    ∀ e ∈ d', ∃ r, remote e.1 = NetResult.ok r ∧ e.2 = r.content := by
  induction ids generalizing d with
  | nil =>
    simp only [loadAux, Option.some.injEq] at h
    subst h
    exact hd
  | cons b rest ih =>
    simp only [loadAux] at h
    cases hrb : remote b with
    | exn => rw [hrb] at h; cases h
    | ok r =>
      rw [hrb] at h
      apply ih _ h
      intro e he
      rcases mem_dictInsert _ _ _ _ he with heq | ⟨hed, _⟩
      · subst heq
        exact ⟨r, hrb, rfl⟩
      · exact hd e hed

theorem keysOf_loadAux_of_nodup (remote : Remote) (ids : List ArticleID) (d d' : Dict)
    (h : loadAux remote ids d = some d') (hnd : (keysOf d ++ ids).Nodup) :
    keysOf d' = keysOf d ++ ids := by
  induction ids generalizing d with
  | nil =>
    simp only [loadAux, Option.some.injEq] at h
    subst h
    simp
  | cons b rest ih =>
    simp only [loadAux] at h
    cases hrb : remote b with
    | exn => rw [hrb] at h; cases h
    | ok r =>
      rw [hrb] at h
      have hbnot : b ∉ keysOf d := by
        rcases List.nodup_append.mp hnd with ⟨_, _, hdisj⟩
        intro hb
        exact hdisj hb (List.mem_cons_self b rest)
      have hkeys : keysOf (dictInsert d b r.content) = keysOf d ++ [b] := by
        rw [keysOf_dictInsert, if_neg hbnot]
      have hnd' : (keysOf (dictInsert d b r.content) ++ rest).Nodup := by
        rw [hkeys, List.append_assoc]
        simpa using hnd
      rw [ih _ h hnd', hkeys, List.append_assoc]
      rfl

/-! ### File-system lemmas -/

theorem writeLoop_nil (fs : FS) (dir : String) : writeLoop fs dir [] = fs := rfl

theorem writeLoop_cons (fs : FS) (dir : String) (e : ArticleID × Bytes) (d : Dict) :
    writeLoop fs dir (e :: d) = writeLoop (fsWrite fs (pathFor dir e.1) e.2) dir d := rfl

theorem find?_filter_ne (fs : FS) (p q : String) (h : q ≠ p) :
    (fs.filter (fun e => e.1 ≠ p)).find? (fun e => e.1 = q) = fs.find? (fun e => e.1 = q) := by
  induction fs with
  | nil => rfl
  | cons e rest ih =>
    by_cases hep : e.1 = p
    · have hq : ¬ (e.1 = q) := fun hq => h (hq ▸ hep)
      rw [List.filter_cons, if_neg (by simp [hep])]
      rw [List.find?_cons_of_neg rest (by simp [hq])]
      exact ih
    · rw [List.filter_cons, if_pos (by simp [hep])]
      by_cases heq : e.1 = q
      · rw [List.find?_cons_of_pos _ (by simp [heq]), List.find?_cons_of_pos rest (by simp [heq])]
      · rw [List.find?_cons_of_neg _ (by simp [heq]), List.find?_cons_of_neg rest (by simp [heq])]
        exact ih

theorem fsLookup_fsWrite_self (fs : FS) (p : String) (v : Bytes) :
    fsLookup (fsWrite fs p v) p = some v := by
  unfold fsLookup fsWrite
  rw [List.find?_cons_of_pos _ (by simp)]
  rfl

theorem fsLookup_fsWrite_ne (fs : FS) (p q : String) (v : Bytes) (h : q ≠ p) :
    fsLookup (fsWrite fs p v) q = fsLookup fs q := by
  unfold fsLookup fsWrite
  rw [List.find?_cons_of_neg _ (by simp [Ne.symm h])]
  rw [find?_filter_ne fs p q h]

theorem fsLookup_writeLoop_of_notmem (d : Dict) (fs : FS) (dir q : String)
    (h : ∀ e ∈ d, pathFor dir e.1 ≠ q) :
    fsLookup (writeLoop fs dir d) q = fsLookup fs q := by
  induction d generalizing fs with
  | nil => rfl
  | cons e rest ih =>
    rw [writeLoop_cons]
    rw [ih _ (fun e' he' => h e' (List.mem_cons_of_mem e he'))]
    exact fsLookup_fsWrite_ne fs _ q e.2 (Ne.symm (h e (List.mem_cons_self e rest)))

theorem fsLookup_writeLoop_of_mem (d : Dict) (fs : FS) (dir : String)
    (e : ArticleID × Bytes)
    (hnd : (d.map (fun x => pathFor dir x.1)).Nodup) (hmem : e ∈ d) :
    fsLookup (writeLoop fs dir d) (pathFor dir e.1) = some e.2 := by
  induction d generalizing fs with
  | nil => cases hmem
  | cons f rest ih =>
    rw [List.map_cons, List.nodup_cons] at hnd
    rcases List.mem_cons.mp hmem with heq | hrest
    · subst heq
      rw [writeLoop_cons]
      rw [fsLookup_writeLoop_of_notmem rest _ dir _ ?_]
      · exact fsLookup_fsWrite_self fs _ e.2
      · intro e' he' hpe
        apply hnd.1
        rw [← hpe]
        exact List.mem_map_of_mem (fun x => pathFor dir x.1) he'
    · rw [writeLoop_cons]
      exact ih _ hnd.2 hrest

theorem length_writeLoop (d : Dict) (fs : FS) (dir : String)
    (hnd : (d.map (fun x => pathFor dir x.1)).Nodup)
    (hdisj : ∀ e ∈ d, pathFor dir e.1 ∉ fs.map Prod.fst) :
    (writeLoop fs dir d).length = fs.length + d.length := by
  induction d generalizing fs with
  | nil => rfl
  | cons e rest ih =>
    rw [List.map_cons, List.nodup_cons] at hnd
    rw [writeLoop_cons]
    have hfw : fsWrite fs (pathFor dir e.1) e.2 = (pathFor dir e.1, e.2) :: fs := by
      unfold fsWrite
      congr 1
      apply List.filter_eq_self.mpr
      intro x hx
      simp only [decide_eq_true_iff]
      intro hxp
      exact hdisj e (List.mem_cons_self e rest) (hxp ▸ List.mem_map_of_mem Prod.fst hx)
    rw [hfw]
    have hdisj' : ∀ e' ∈ rest, pathFor dir e'.1 ∉ ((pathFor dir e.1, e.2) :: fs).map Prod.fst := by
      intro e' he'
      simp only [List.map_cons, List.mem_cons]
      push_neg
      constructor
      · intro hpe
        apply hnd.1
        rw [← hpe]
        exact List.mem_map_of_mem (fun x => pathFor dir x.1) he'
      · exact fun hm => hdisj e' (List.mem_cons_of_mem e he') hm
    rw [ih _ hnd.2 hdisj']
    simp only [List.length_cons]
    omega

theorem pathFor_inj (dir a b : String) (h : pathFor dir a = pathFor dir b) : a = b := by
  unfold pathFor at h
  have hdata := congrArg String.data h
  simp only [String.data_append] at hdata
  have h1 := List.append_cancel_right hdata
  have h2 := List.append_cancel_left h1
  cases a
  cases b
  exact congrArg String.mk h2

/-! ### Unfolding the run under the normal-operation hypotheses -/

theorem run_load_none (remote : Remote) (ids : List ArticleID) (dir : String) (fs : FS)
    (h : load_pmc_data remote ids = none) :
    run remote ids dir fs = (fs, some RunOutcome.netExn) := by
  unfold run
  rw [h]

theorem run_del_none (remote : Remote) (ids : List ArticleID) (dir : String) (fs : FS)
    (d' : Dict) (h : load_pmc_data remote ids = some d')
    (h2 : dictDel d' excludedId = none) :
    run remote ids dir fs = (fs, some RunOutcome.keyError) := by
  unfold run
  rw [h]
  simp only [h2]

theorem run_del_some (remote : Remote) (ids : List ArticleID) (dir : String) (fs : FS)
    (d' d2 : Dict) (h : load_pmc_data remote ids = some d')
    (h2 : dictDel d' excludedId = some d2) :
    run remote ids dir fs = (writeLoop fs dir d2, none) := by
  unfold run
  rw [h]
  simp only [h2]

theorem run_ok (remote : Remote) (ids : List ArticleID) (dir : String) (fs : FS)
    (hok : ∀ i ∈ ids, remote i ≠ NetResult.exn) (hex : excludedId ∈ ids) :
    ∃ d', load_pmc_data remote ids = some d' ∧
      run remote ids dir fs = (writeLoop fs dir (d'.filter (fun e => e.1 ≠ excludedId)), none) := by
  rcases loadAux_some_of_ok remote ids [] hok with ⟨d', hd'⟩
  refine ⟨d', hd', ?_⟩
  have hmem : excludedId ∈ keysOf d' :=
    mem_keysOf_loadAux remote ids [] d' hd' excludedId (Or.inr hex)
  exact run_del_some remote ids dir fs d' _ hd' (by unfold dictDel; rw [if_pos hmem])

theorem nodup_keysOf_del (d : Dict) (k : ArticleID) (h : (keysOf d).Nodup) :
    (keysOf (d.filter (fun e => e.1 ≠ k))).Nodup := by
  rw [keysOf_filter_ne]
  exact h.filter _

theorem paths_nodup (d : Dict) (dir : String) (h : (keysOf d).Nodup) :
    (d.map (fun x => pathFor dir x.1)).Nodup := by
  have hmapeq : d.map (fun x => pathFor dir x.1) = (keysOf d).map (pathFor dir) := by
    simp only [keysOf, List.map_map]
    rfl
  rw [hmapeq]
  exact List.Nodup.map (fun x y hxy => pathFor_inj dir x y hxy) h

theorem requestedIds_eq_of_ok (remote : Remote) (ids : List ArticleID)
    (hok : ∀ i ∈ ids, remote i ≠ NetResult.exn) : requestedIds remote ids = ids := by
  induction ids with
  | nil => rfl
  | cons a rest ih =>
    simp only [requestedIds]
    cases hra : remote a with
    | exn => exact absurd hra (hok a (List.mem_cons_self a rest))
    | ok r => rw [ih (fun i hi => hok i (List.mem_cons_of_mem a hi))]

/-- Core persistence fact: under normal operation, every non-excluded manifest
entry ends up on disk with exactly the body bytes its request returned,
whatever the initial state of the output directory was. -/
theorem run_writes_content (remote : Remote) (ids : List ArticleID) (dir : String)
    (fs : FS) (z : ArticleID) (r : Response)
    (hok : ∀ i ∈ ids, remote i ≠ NetResult.exn)
    (hz : z ∈ ids) (hzx : z ≠ excludedId) (hex : excludedId ∈ ids)
    (hzr : remote z = NetResult.ok r) :
    fsLookup (run remote ids dir fs).1 (pathFor dir z) = some r.content := by
  rcases run_ok remote ids dir fs hok hex with ⟨d', hd', hrun⟩
  have hkz : z ∈ keysOf d' := mem_keysOf_loadAux remote ids [] d' hd' z (Or.inr hz)
  rcases List.mem_map.mp hkz with ⟨e, hed, hez⟩
  rcases values_loadAux remote ids [] d' hd' (by intro e' he'; cases he') e hed with
    ⟨rr, hrr, hcontent⟩
  have hrre : rr = r := by
    rw [hez, hzr] at hrr
    exact (NetResult.ok.inj hrr).symm
  have hed2 : e ∈ d'.filter (fun x => x.1 ≠ excludedId) :=
    List.mem_filter.mpr ⟨hed, by simp [hez, hzx]⟩
  have hnd' : (keysOf d').Nodup :=
    nodup_keysOf_loadAux remote ids [] d' hd' (by simp [keysOf])
  have hpaths := paths_nodup _ dir (nodup_keysOf_del d' excludedId hnd')
  simp only [hrun]
  rw [← hez]
  rw [fsLookup_writeLoop_of_mem _ fs dir e hpaths hed2]
  rw [hcontent, hrre]

theorem length_filter_eq_of_nodup (l : List ArticleID) (a : ArticleID)
    (hnd : l.Nodup) (ha : a ∈ l) :
    (l.filter (fun x => x = a)).length = 1 := by
  induction l with
  | nil => cases ha
  | cons b rest ih =>
    rw [List.nodup_cons] at hnd
    by_cases hb : b = a
    · subst hb
      have hrest : rest.filter (fun x => x = b) = [] := by
        apply List.filter_eq_nil_iff.mpr
        intro x hx
        simp only [decide_eq_true_eq]
        exact fun hxb => hnd.1 (hxb ▸ hx)
      rw [List.filter_cons, if_pos (by simp), hrest]
      rfl
    · have ha' : a ∈ rest := by
        rcases List.mem_cons.mp ha with h | h
        · exact absurd h.symm hb
        · exact h
      rw [List.filter_cons, if_neg (by simp [hb])]
      exact ih hnd.2 ha'

theorem length_filter_mem_exclusions (ids : List ArticleID) (hnd : ids.Nodup)
    (hmem : excludedId ∈ ids) :
    (ids.filter (fun i => i ∈ exclusions)).length = 1 := by
  have heq : ids.filter (fun i => i ∈ exclusions) = ids.filter (fun i => i = excludedId) := by
    apply List.filter_congr
    intro x _
    by_cases h : x = excludedId
    · simp [exclusions, h]
    · simp [exclusions, h]
  rw [heq]
  exact length_filter_eq_of_nodup ids excludedId hnd hmem

/-! ### `splitlines` lemmas -/

theorem splitlinesAux_crlf (rest acc : List Char) :
    splitlinesAux ('\r' :: '\n' :: rest) acc = acc.reverse :: splitlinesAux rest [] := by
  simp [splitlinesAux]

theorem splitlinesAux_boundary (c : Char) (rest acc : List Char)
    (hc : c ≠ '\r') (hb : isLineBoundary c = true) :
    splitlinesAux (c :: rest) acc = acc.reverse :: splitlinesAux rest [] := by
  simp [splitlinesAux, hc, hb]

theorem splitlinesAux_cr_not_lf (c2 : Char) (rest acc : List Char) (h : c2 ≠ '\n') :
    splitlinesAux ('\r' :: c2 :: rest) acc = acc.reverse :: splitlinesAux (c2 :: rest) [] := by
  simp [splitlinesAux, h, isLineBoundary]

theorem splitlinesAux_other (c : Char) (rest acc : List Char)
    (hb : isLineBoundary c = false) :
    splitlinesAux (c :: rest) acc = splitlinesAux rest (c :: acc) := by
  have hc : c ≠ '\r' := by
    intro he
    rw [he] at hb
    simp [isLineBoundary] at hb
  simp [splitlinesAux, hc, hb]

theorem not_lf_of_not_boundary (c : Char) (hb : isLineBoundary c = false) : c ≠ '\n' := by
  intro he
  rw [he] at hb
  simp [isLineBoundary] at hb

theorem splitlinesAux_replicate_newline (n : Nat) :
    splitlinesAux (List.replicate n '\n') [] = List.replicate n [] := by
  induction n with
  | zero => rfl
  | succ m ih =>
    rw [List.replicate_succ, splitlinesAux_boundary '\n' _ _ (by decide) (by decide), ih,
      List.replicate_succ]
    rfl

/-- Appending `n` extra newlines after a first trailing newline appends `n`
empty lines to the split, whatever the preceding content is. Stated with an
explicit fuel bound on the content length to drive the induction. -/
theorem splitlinesAux_extra_newlines_fuel :
    ∀ (m : Nat) (cs : List Char), cs.length ≤ m → ∀ (acc : List Char) (n : Nat),
      splitlinesAux (cs ++ '\n' :: List.replicate n '\n') acc =
        splitlinesAux (cs ++ ['\n']) acc ++ List.replicate n [] := by
  intro m
  induction m with
  | zero =>
    intro cs hlen acc n
    have hcs : cs = [] := List.length_eq_zero.mp (Nat.le_zero.mp hlen)
    subst hcs
    simp only [List.nil_append]
    rw [splitlinesAux_boundary '\n' _ acc (by decide) (by decide),
      splitlinesAux_boundary '\n' _ acc (by decide) (by decide),
      splitlinesAux_replicate_newline n]
    rfl
  | succ m ih =>
    intro cs hlen acc n
    cases cs with
    | nil =>
      simp only [List.nil_append]
      rw [splitlinesAux_boundary '\n' _ acc (by decide) (by decide),
        splitlinesAux_boundary '\n' _ acc (by decide) (by decide),
        splitlinesAux_replicate_newline n]
      rfl
    | cons c0 rest =>
      simp only [List.length_cons] at hlen
      by_cases hc0 : c0 = '\r'
      · subst hc0
        cases rest with
        | nil =>
          simp only [List.cons_append, List.nil_append]
          rw [splitlinesAux_crlf, splitlinesAux_crlf, splitlinesAux_replicate_newline n]
          rfl
        | cons c1 rest1 =>
          simp only [List.length_cons] at hlen
          by_cases hc1 : c1 = '\n'
          · subst hc1
            simp only [List.cons_append]
            rw [splitlinesAux_crlf, splitlinesAux_crlf]
            rw [ih rest1 (by omega) [] n]
            simp
          · simp only [List.cons_append]
            rw [splitlinesAux_cr_not_lf c1 _ acc hc1, splitlinesAux_cr_not_lf c1 _ acc hc1]
            rw [← List.cons_append, ← List.cons_append]
            rw [ih (c1 :: rest1) (by simp; omega) [] n]
            simp
      · cases hb : isLineBoundary c0 with
        | true =>
          simp only [List.cons_append]
          rw [splitlinesAux_boundary c0 _ acc hc0 hb, splitlinesAux_boundary c0 _ acc hc0 hb]
          rw [ih rest (by omega) [] n]
          simp
        | false =>
          simp only [List.cons_append]
          rw [splitlinesAux_other c0 _ acc hb, splitlinesAux_other c0 _ acc hb]
          exact ih rest (by omega) (c0 :: acc) n

/-- A single newline appended after content whose last character is not a
line boundary splits into exactly the same lines as the bare content: the
final terminator contributes no entry. -/
theorem splitlinesAux_last_newline_fuel :
    ∀ (m : Nat) (cs : List Char), cs.length ≤ m → ∀ (c : Char) (acc : List Char),
      isLineBoundary c = false →
      splitlinesAux (cs ++ [c, '\n']) acc = splitlinesAux (cs ++ [c]) acc := by
  intro m
  induction m with
  | zero =>
    intro cs hlen c acc hc
    have hcs : cs = [] := List.length_eq_zero.mp (Nat.le_zero.mp hlen)
    subst hcs
    simp only [List.nil_append]
    rw [show ([c, '\n'] : List Char) = c :: ['\n'] from rfl,
      splitlinesAux_other c _ acc hc,
      splitlinesAux_boundary '\n' _ _ (by decide) (by decide),
      splitlinesAux_other c _ acc hc]
    rfl
  | succ m ih =>
    intro cs hlen c acc hc
    cases cs with
    | nil =>
      simp only [List.nil_append]
      rw [show ([c, '\n'] : List Char) = c :: ['\n'] from rfl,
        splitlinesAux_other c _ acc hc,
        splitlinesAux_boundary '\n' _ _ (by decide) (by decide),
        splitlinesAux_other c _ acc hc]
      rfl
    | cons c0 rest =>
      simp only [List.length_cons] at hlen
      by_cases hc0 : c0 = '\r'
      · subst hc0
        cases rest with
        | nil =>
          simp only [List.cons_append, List.nil_append]
          rw [splitlinesAux_cr_not_lf c _ acc (not_lf_of_not_boundary c hc),
            splitlinesAux_cr_not_lf c _ acc (not_lf_of_not_boundary c hc)]
          have h0 := ih [] (by omega) c [] hc
          simp only [List.nil_append] at h0
          rw [show (c :: ['\n'] : List Char) = [c, '\n'] from rfl, h0]
        | cons c1 rest1 =>
          simp only [List.length_cons] at hlen
          by_cases hc1 : c1 = '\n'
          · subst hc1
            simp only [List.cons_append]
            rw [splitlinesAux_crlf, splitlinesAux_crlf]
            rw [ih rest1 (by omega) c [] hc]
          · simp only [List.cons_append]
            rw [splitlinesAux_cr_not_lf c1 _ acc hc1, splitlinesAux_cr_not_lf c1 _ acc hc1]
            rw [← List.cons_append, ← List.cons_append]
            rw [ih (c1 :: rest1) (by simp; omega) c [] hc]
      · cases hb : isLineBoundary c0 with
        | true =>
          simp only [List.cons_append]
          rw [splitlinesAux_boundary c0 _ acc hc0 hb, splitlinesAux_boundary c0 _ acc hc0 hb]
          rw [ih rest (by omega) c [] hc]
        | false =>
          simp only [List.cons_append]
          rw [splitlinesAux_other c0 _ acc hb, splitlinesAux_other c0 _ acc hb]
          exact ih rest (by omega) c (c0 :: acc) hc

/-- C5: when the manifest file content is `"X\nY\n"`, `load_ids` returns
exactly `["X", "Y"]`: order preserved and no blank trailing entry. -/
theorem C5_load_ids_two_lines : load_ids "X\nY\n" = ["X", "Y"] := by decide

/-- C6 counterexample: with one trailing blank line (content `"X\n\n"`),
`load_ids` does produce an empty-string entry, so trailing blank lines are
not all ignored. -/
theorem C6_counterexample_trailing_blank : "" ∈ load_ids "X\n\n" := by decide

/-! ### The claims -/

/-- C1 (amended): for every non-empty manifest without duplicate entries that
contains the excluded id `PMC6472519`, when every request returns a response,
the number of output files produced on an initially empty output directory
equals the manifest length minus the number of manifest entries in the
exclusion set. -/
theorem C1_amended_output_count (remote : Remote) (ids : List ArticleID) (dir : String)
    (hne : ids ≠ []) (hnd : ids.Nodup) (hex : excludedId ∈ ids)
    (hok : ∀ i ∈ ids, remote i ≠ NetResult.exn) :
    numOutputFiles remote ids dir =
      ids.length - (ids.filter (fun i => i ∈ exclusions)).length := by
  rcases run_ok remote ids dir [] hok hex with ⟨d', hd', hrun⟩
  have hkeys : keysOf d' = ids := by
    have h := keysOf_loadAux_of_nodup remote ids [] d' hd' (by simpa [keysOf] using hnd)
    simpa [keysOf] using h
  have hnd' : (keysOf d').Nodup := by rw [hkeys]; exact hnd
  have hkeys2 : keysOf (d'.filter (fun e => e.1 ≠ excludedId)) =
      (keysOf d').filter (fun a => a ≠ excludedId) := keysOf_filter_ne d' excludedId
  have hnd2 := nodup_keysOf_del d' excludedId hnd'
  have hlen2 : (d'.filter (fun e => e.1 ≠ excludedId)).length = ids.length - 1 := by
    have h1 : (d'.filter (fun e => e.1 ≠ excludedId)).length =
        (keysOf (d'.filter (fun e => e.1 ≠ excludedId))).length :=
      (List.length_map _ _).symm
    rw [h1, hkeys2, hkeys]
    exact length_filter_ne_of_nodup ids excludedId hnd hex
  have hpaths := paths_nodup _ dir hnd2
  have hcount := length_writeLoop (d'.filter (fun e => e.1 ≠ excludedId)) [] dir hpaths
    (by intro e _; simp)
  unfold numOutputFiles
  simp only [hrun]
  rw [hcount, hlen2, length_filter_mem_exclusions ids hnd hex]
  simp

/-- C1 counterexample: on the non-empty manifest `["A", "A", "PMC6472519"]`
(duplicates not deduplicated), with every request answered, the procedure
produces 1 output file, not `3 - 1 = 2` as the claim computes: the dict
comprehension collapses duplicate ids into one key. -/
theorem C1_counterexample_duplicates :
    ¬ (numOutputFiles okRemote ["A", "A", "PMC6472519"] "data" =
      (["A", "A", "PMC6472519"] : List ArticleID).length -
      ((["A", "A", "PMC6472519"] : List ArticleID).filter
        (fun i => i ∈ exclusions)).length) := by
  decide

/-- C1 witness: on the duplicate-free manifest `["A", "B", "PMC6472519"]`, the
amended count formula holds (2 output files). -/
theorem C1_witness :
    numOutputFiles okRemote ["A", "B", "PMC6472519"] "data" =
      (["A", "B", "PMC6472519"] : List ArticleID).length -
      ((["A", "B", "PMC6472519"] : List ArticleID).filter
        (fun i => i ∈ exclusions)).length :=
  C1_amended_output_count okRemote ["A", "B", "PMC6472519"] "data" (by decide) (by decide)
    (by decide) (by decide)

/-- C2 (code bug evidence): the response for `"A"` is a 404, which is not a
success status, yet the run finishes without any error and writes the error
body verbatim to `data/A.xml`: `load_pmc_data` never checks the status, so no
`FetchError` is raised and the error body is silently persisted. -/
theorem C2_code_bug_silent_error_body :
    isSuccess (Response.mk 404 [69, 82, 82]) = false ∧
    remote404 "A" = NetResult.ok (Response.mk 404 [69, 82, 82]) ∧
    (run remote404 ["A", "PMC6472519"] "data" []).2 = none ∧
    fsLookup (run remote404 ["A", "PMC6472519"] "data" []).1 (pathFor "data" "A") =
      some [69, 82, 82] := by
  decide

/-- C3 (amended): `load_pmc_data` issues a GET for every manifest entry,
excluded ones included — the exclusion is applied only after fetching, before
persistence — so no file is ever written for the excluded id even though it
is requested. -/
theorem C3_amended_requests_all (remote : Remote) (ids : List ArticleID) (dir : String)
    (hok : ∀ i ∈ ids, remote i ≠ NetResult.exn) (hex : excludedId ∈ ids) :
    requestedIds remote ids = ids ∧
    fsLookup (run remote ids dir []).1 (pathFor dir excludedId) = none := by
  refine ⟨requestedIds_eq_of_ok remote ids hok, ?_⟩
  rcases run_ok remote ids dir [] hok hex with ⟨d', _, hrun⟩
  simp only [hrun]
  rw [fsLookup_writeLoop_of_notmem _ _ _ _ ?_]
  · rfl
  · intro e he hpe
    have he2 := List.mem_filter.mp he
    have hne : e.1 ≠ excludedId := by simpa using he2.2
    exact hne (pathFor_inj dir e.1 excludedId hpe)

/-- C3 counterexample: when the excluded id is in the manifest, an HTTP GET is
issued for it, so an id in the exclusion set is not "never requested". -/
theorem C3_counterexample_excluded_requested :
    excludedId ∈ requestedIds okRemote [excludedId] := by
  decide

/-- C3 witness: on the manifest `["A", "PMC6472519"]` both ids are requested
and no file is written for the excluded id. -/
theorem C3_witness :
    requestedIds okRemote ["A", "PMC6472519"] = ["A", "PMC6472519"] ∧
    fsLookup (run okRemote ["A", "PMC6472519"] "data" []).1
      (pathFor "data" excludedId) = none :=
  C3_amended_requests_all okRemote ["A", "PMC6472519"] "data" (by decide) (by decide)

/-- C4: in the original behavior a failing remote call — a response with a
non-success status, the only kind of failure `requests.get` reports without
raising — does not prevent the files for the other manifest ids from being
written: every other non-excluded id still gets a file. -/
theorem C4_failure_does_not_block_others (remote : Remote) (ids : List ArticleID)
    (dir : String) (z : ArticleID) (r : Response)
    (hok : ∀ i ∈ ids, remote i ≠ NetResult.exn)
    (hz : z ∈ ids) (hzr : remote z = NetResult.ok r) (hfail : isSuccess r = false)
    (hex : excludedId ∈ ids) :
    ∀ w ∈ ids, w ≠ excludedId →
      fsLookup (run remote ids dir []).1 (pathFor dir w) ≠ none := by
  intro w hw hwx
  have hwok : remote w ≠ NetResult.exn := hok w hw
  cases hrw : remote w with
  | exn => exact absurd hrw hwok
  | ok rw0 =>
    rw [run_writes_content remote ids dir [] w rw0 hok hw hwx hex hrw]
    intro hsn
    cases hsn

/-- C4 witness: with the request for `"A"` answered by a 404 error page, the
file for `"B"` is still produced. -/
theorem C4_witness :
    fsLookup (run remote404 ["A", "B", "PMC6472519"] "data" []).1
      (pathFor "data" "B") ≠ none :=
  C4_failure_does_not_block_others remote404 ["A", "B", "PMC6472519"] "data" "A"
    (Response.mk 404 [69, 82, 82]) (by decide) (by decide) (by decide) (by decide)
    (by decide) "B" (by decide) (by decide)

/-- C6 (amended): `load_ids` ignores only the final line terminator, not
trailing blank lines. For every manifest content whose last character is not
a line-boundary character (any number of lines, any ids), appending one final
newline leaves the returned entries unchanged — no blank trailing entry —
and appending `n` further trailing blank lines appends exactly `n`
empty-string entries, one per blank line. -/
theorem C6_amended_trailing_blank_entries (s : String) (cs : List Char) (c : Char)
    (n : Nat) (hdata : s.data = cs ++ [c]) (hc : isLineBoundary c = false) :
    load_ids (s ++ newlines (n + 1)) = load_ids s ++ List.replicate n "" ∧
    load_ids (s ++ newlines 1) = load_ids s := by
  have hpart2 : load_ids (s ++ newlines 1) = load_ids s := by
    unfold load_ids splitlines
    have hd : (s ++ newlines 1).data = cs ++ [c, '\n'] := by
      rw [String.data_append, hdata, List.append_assoc]
      rfl
    rw [hd, hdata, splitlinesAux_last_newline_fuel cs.length cs (Nat.le_refl _) c [] hc]
  have hpart1 : load_ids (s ++ newlines (n + 1)) =
      load_ids (s ++ newlines 1) ++ List.replicate n "" := by
    unfold load_ids splitlines
    have hd1 : (s ++ newlines (n + 1)).data = s.data ++ '\n' :: List.replicate n '\n' := by
      rw [String.data_append]
      rfl
    have hd2 : (s ++ newlines 1).data = s.data ++ ['\n'] := by
      rw [String.data_append]
      rfl
    rw [hd1, hd2,
      splitlinesAux_extra_newlines_fuel s.data.length s.data (Nat.le_refl _) [] n]
    rw [List.map_append, List.map_replicate]
  refine ⟨?_, hpart2⟩
  rw [hpart1, hpart2]

/-- C6 witness: for the two-line manifest content `"A\nB"`, one final newline
adds no entry, and a second trailing newline (one trailing blank line) adds
exactly one empty-string entry. -/
theorem C6_witness :
    load_ids ("A\nB" ++ newlines 2) = load_ids "A\nB" ++ List.replicate 1 "" ∧
    load_ids ("A\nB" ++ newlines 1) = load_ids "A\nB" :=
  C6_amended_trailing_blank_entries "A\nB" ['A', '\n'] 'B' 1 (by decide) (by decide)

/-- C7: for every id whose fetch succeeds (and is not the excluded id, which
is deleted before persistence), the file written at `{dir}/{id}.xml` contains
exactly the bytes of the response body returned by the remote call for that
id — written verbatim, no transformation — whatever the initial directory
state. -/
theorem C7_byte_identical_content (remote : Remote) (ids : List ArticleID)
    (dir : String) (fs : FS) (z : ArticleID) (r : Response)
    (hok : ∀ i ∈ ids, remote i ≠ NetResult.exn)
    (hz : z ∈ ids) (hzx : z ≠ excludedId) (hex : excludedId ∈ ids)
    (hzr : remote z = NetResult.ok r) (hs : isSuccess r = true) :
    fsLookup (run remote ids dir fs).1 (pathFor dir z) = some r.content :=
  run_writes_content remote ids dir fs z r hok hz hzx hex hzr

/-- C7 witness: the 200 response body `[60, 120, 62]` for `"A"` is written
byte-identically to `data/A.xml`. -/
theorem C7_witness :
    fsLookup (run okRemote ["A", "PMC6472519"] "data" []).1 (pathFor "data" "A") =
      some (Response.mk 200 [60, 120, 62]).content :=
  C7_byte_identical_content okRemote ["A", "PMC6472519"] "data" [] "A"
    (Response.mk 200 [60, 120, 62]) (by decide) (by decide) (by decide) (by decide)
    (by decide) (by decide)

/-- C8: re-running the procedure when `{id}.xml` already exists (here: after a
first run produced it) overwrites that file with the newly fetched content
and never fails with an existing-file conflict: the second run finishes with
no error and the file holds the second run's bytes. -/
theorem C8_rerun_overwrites (r1 r2 : Remote) (ids : List ArticleID) (dir : String)
    (fs : FS) (z : ArticleID) (rz1 rz2 : Response)
    (hok1 : ∀ i ∈ ids, r1 i ≠ NetResult.exn) (hok2 : ∀ i ∈ ids, r2 i ≠ NetResult.exn)
    (hz : z ∈ ids) (hzx : z ≠ excludedId) (hex : excludedId ∈ ids)
    (hzr1 : r1 z = NetResult.ok rz1) (hzr2 : r2 z = NetResult.ok rz2) :
    fsLookup (run r1 ids dir fs).1 (pathFor dir z) = some rz1.content ∧
    (run r2 ids dir (run r1 ids dir fs).1).2 = none ∧
    fsLookup (run r2 ids dir (run r1 ids dir fs).1).1 (pathFor dir z) =
      some rz2.content := by
  refine ⟨run_writes_content r1 ids dir fs z rz1 hok1 hz hzx hex hzr1, ?_, ?_⟩
  · rcases run_ok r2 ids dir (run r1 ids dir fs).1 hok2 hex with ⟨d', _, hrun⟩
    simp [hrun]
  · exact run_writes_content r2 ids dir (run r1 ids dir fs).1 z rz2 hok2 hz hzx hex hzr2

/-- C8 witness: after a first run writes `data/A.xml` with the 200 body, a
second run whose fetch for `"A"` returns the 404 body finishes with no error
and leaves the 404 body in `data/A.xml`. -/
theorem C8_witness :
    fsLookup (run okRemote ["A", "PMC6472519"] "data" []).1 (pathFor "data" "A") =
      some (Response.mk 200 [60, 120, 62]).content ∧
    (run remote404 ["A", "PMC6472519"] "data"
      (run okRemote ["A", "PMC6472519"] "data" []).1).2 = none ∧
    fsLookup (run remote404 ["A", "PMC6472519"] "data"
      (run okRemote ["A", "PMC6472519"] "data" []).1).1 (pathFor "data" "A") =
      some (Response.mk 404 [69, 82, 82]).content :=
  C8_rerun_overwrites okRemote remote404 ["A", "PMC6472519"] "data" [] "A"
    (Response.mk 200 [60, 120, 62]) (Response.mk 404 [69, 82, 82]) (by decide)
    (by decide) (by decide) (by decide) (by decide) (by decide) (by decide)

/-- C9: the whole dict comprehension runs before any file write, so if any
single request raises an exception the run stops in the fetch phase and the
file system is left exactly as it was: no file at all is written. -/
theorem C9_exception_means_no_writes (remote : Remote) (ids : List ArticleID)
    (dir : String) (fs : FS) (h : ∃ i ∈ ids, remote i = NetResult.exn) :
    run remote ids dir fs = (fs, some RunOutcome.netExn) :=
  run_load_none remote ids dir fs (loadAux_none_of_exn remote ids [] h)

/-- C9 witness: with every request raising, a run over a two-id manifest
leaves the pre-existing directory contents untouched. -/
theorem C9_witness :
    run exnRemote ["A", "PMC6472519"] "data" [("data/old.xml", [1])] =
      ([("data/old.xml", [1])], some RunOutcome.netExn) :=
  C9_exception_means_no_writes exnRemote ["A", "PMC6472519"] "data"
    [("data/old.xml", [1])] (by decide)

/-- C10: the exclusion is a hard deletion. When `PMC6472519` is not among the
fetched results — here because it is absent from the manifest — the run fails
with a `KeyError` instead of treating the exclusion as a no-op (and writes
nothing). -/
theorem C10_missing_excluded_keyerror (remote : Remote) (ids : List ArticleID)
    (dir : String) (fs : FS)
    (hok : ∀ i ∈ ids, remote i ≠ NetResult.exn) (hnex : excludedId ∉ ids) :
    run remote ids dir fs = (fs, some RunOutcome.keyError) := by
  rcases loadAux_some_of_ok remote ids [] hok with ⟨d', hd'⟩
  have hno : excludedId ∉ keysOf d' := by
    intro hmem
    rcases keysOf_loadAux_subset remote ids [] d' hd' excludedId hmem with h | h
    · simp [keysOf] at h
    · exact hnex h
  exact run_del_none remote ids dir fs d'
    (show load_pmc_data remote ids = some d' from hd')
    (by unfold dictDel; rw [if_neg hno])

/-- C10 witness: a manifest `["A"]` without the excluded id ends in
`KeyError` with nothing written. -/
theorem C10_witness :
    run okRemote ["A"] "data" [] = ([], some RunOutcome.keyError) :=
  C10_missing_excluded_keyerror okRemote ["A"] "data" [] (by decide) (by decide)
